import Mathlib

/-!
Verification of the SIM-KB core of friggs-gate-mimick.

The repository ships the SIM-KB documentation (TECHNICAL_FLOW.md,
USER_GUIDE.md, schema.sql) and the mobile chat screen; the Python core
(semantic_search.py, llm_navigator.py, db_manager.py, data_loader.py) is
referenced but not shipped.  Where the Python source is absent, the
definitions below are modelled from the specification and from the code
excerpts and changelog entries embedded in the shipped documentation; each
such definition says so in its doc comment.  Real vectors stand for the
float vectors of the implementation.
-/

/-- Dot product of two embedding vectors, `sum(a * b for a, b in zip(vec1, vec2))`
from `cosine_similarity` in TECHNICAL_FLOW.md. -/
def listDot (v w : List ℝ) : ℝ := (List.zipWith (fun a b => a * b) v w).sum

/-- Sum of squares of the components of a vector, the radicand of
`math.sqrt(sum(a * a for a in vec))` in `cosine_similarity`. -/
def sumSq (v : List ℝ) : ℝ := (v.map (fun a => a * a)).sum

/-- Magnitude `math.sqrt(sum(a * a for a in vec))` of a vector, as in
`cosine_similarity` in TECHNICAL_FLOW.md. -/
noncomputable def magnitude (v : List ℝ) : ℝ := Real.sqrt (sumSq v)

/-- The `cosine_similarity` implementation from TECHNICAL_FLOW.md:
`dot_product / (magnitude1 * magnitude2)` with no guard on the
denominator.  The Python division raises `ZeroDivisionError` when the
denominator is zero; that partiality is embedded as the `none` branch. -/
noncomputable def cosine_similarity (vec1 vec2 : List ℝ) : Option ℝ :=
  if magnitude vec1 * magnitude vec2 = 0 then none
  else some (listDot vec1 vec2 / (magnitude vec1 * magnitude vec2))

theorem listDot_comm (v w : List ℝ) : listDot v w = listDot w v := by
  unfold listDot
  rw [List.zipWith_comm_of_comm]
  intro a b
  exact mul_comm a b

theorem listDot_self (v : List ℝ) : listDot v v = sumSq v := by
  unfold listDot sumSq
  induction v with
  | nil => rfl
  | cons a t ih => simp [List.zipWith, ih]

theorem sumSq_nonneg (v : List ℝ) : 0 ≤ sumSq v := by
  unfold sumSq
  induction v with
  | nil => simp
  | cons a t ih =>
      simp only [List.map_cons, List.sum_cons]
      exact add_nonneg (mul_self_nonneg a) ih

theorem sumSq_eq_zero_iff (v : List ℝ) : sumSq v = 0 ↔ ∀ x ∈ v, x = 0 := by
  induction v with
  | nil => simp [sumSq]
  | cons a t ih =>
      unfold sumSq at *
      simp only [List.map_cons, List.sum_cons, List.mem_cons]
      constructor
      · intro h
        have h2 := (add_eq_zero_iff_of_nonneg (mul_self_nonneg a)
          (sumSq_nonneg t)).mp h
        have ha : a = 0 := by
          have := h2.1
          exact mul_self_eq_zero.mp this
        intro x hx
        rcases hx with hx | hx
        · exact hx ▸ ha
        · exact (ih.mp h2.2) x hx
      · intro h
        have ha : a = 0 := h a (Or.inl rfl)
        have ht : (t.map (fun a => a * a)).sum = 0 :=
          ih.mpr (fun x hx => h x (Or.inr hx))
        simp [ha, ht]

theorem magnitude_eq_zero_iff (v : List ℝ) : magnitude v = 0 ↔ ∀ x ∈ v, x = 0 := by
  unfold magnitude
  rw [Real.sqrt_eq_zero (sumSq_nonneg v)]
  exact sumSq_eq_zero_iff v

theorem magnitude_ne_zero_of_nonzero {v : List ℝ} (h : ∃ x ∈ v, x ≠ 0) :
    magnitude v ≠ 0 := by
  intro hz
  obtain ⟨x, hx, hne⟩ := h
  exact hne ((magnitude_eq_zero_iff v).mp hz x hx)

/-- C10: the `cosine_similarity` implementation divides by the product of the
two magnitudes with no zero guard: it yields a value exactly when both inputs
have a nonzero component, and for any zero vector on either side the
division-by-zero branch (embedded as `none`) is reached. -/
theorem cosine_similarity_needs_nonzero_vectors :
    (∀ v w : List ℝ, (∃ x ∈ v, x ≠ 0) → (∃ x ∈ w, x ≠ 0) →
      ∃ r, cosine_similarity v w = some r) ∧
    (∀ v w : List ℝ, (∀ x ∈ v, x = 0) → cosine_similarity v w = none) ∧
    (∀ v w : List ℝ, (∀ x ∈ w, x = 0) → cosine_similarity v w = none) := by
  refine ⟨?_, ?_, ?_⟩
  · intro v w hv hw
    have hne : magnitude v * magnitude w ≠ 0 :=
      mul_ne_zero (magnitude_ne_zero_of_nonzero hv) (magnitude_ne_zero_of_nonzero hw)
    exact ⟨_, if_neg hne⟩
  · intro v w hv
    have hz : magnitude v = 0 := (magnitude_eq_zero_iff v).mpr hv
    unfold cosine_similarity
    rw [hz, zero_mul, if_pos rfl]
  · intro v w hw
    have hz : magnitude w = 0 := (magnitude_eq_zero_iff w).mpr hw
    unfold cosine_similarity
    rw [hz, mul_zero, if_pos rfl]

/-- Witness for C10 at concrete vectors. -/
theorem cosine_similarity_needs_nonzero_vectors_witness :
    (∃ r, cosine_similarity [(1 : ℝ)] [(2 : ℝ)] = some r) ∧
    cosine_similarity [(0 : ℝ)] [(1 : ℝ)] = none ∧
    cosine_similarity [(1 : ℝ)] [(0 : ℝ)] = none := by
  refine ⟨?_, ?_, ?_⟩
  · exact cosine_similarity_needs_nonzero_vectors.1 [(1 : ℝ)] [(2 : ℝ)]
      ⟨1, by simp, one_ne_zero⟩ ⟨2, by simp, two_ne_zero⟩
  · exact cosine_similarity_needs_nonzero_vectors.2.1 [(0 : ℝ)] [(1 : ℝ)]
      (by intro x hx; simpa using hx)
  · exact cosine_similarity_needs_nonzero_vectors.2.2 [(1 : ℝ)] [(0 : ℝ)]
      (by intro x hx; simpa using hx)

/-- C9 counterexample: on the zero vector the self-similarity is not a value
near 1.0 - the implementation reaches the division-by-zero branch instead,
so the claim fails for the vector [0]. -/
theorem cosine_similarity_self_zero_vector :
    cosine_similarity [(0 : ℝ)] [(0 : ℝ)] = none ∧
    cosine_similarity [(0 : ℝ)] [(0 : ℝ)] ≠ some 1 := by
  have hz : magnitude [(0 : ℝ)] = 0 := by
    rw [magnitude_eq_zero_iff]
    intro x hx
    simpa using hx
  have h : cosine_similarity [(0 : ℝ)] [(0 : ℝ)] = none := by
    unfold cosine_similarity
    rw [hz, zero_mul, if_pos rfl]
  exact ⟨h, by rw [h]; exact fun hc => Option.noConfusion hc⟩

/-- C9 (amended): cosine similarity is symmetric for equal-dimension vectors,
and for every vector with a nonzero component the self-similarity is exactly
1 (hence within any epsilon of 1.0). -/
theorem cosine_similarity_symm_and_self :
    (∀ a b : List ℝ, a.length = b.length →
      cosine_similarity a b = cosine_similarity b a) ∧
    (∀ v : List ℝ, (∃ x ∈ v, x ≠ 0) → cosine_similarity v v = some 1) := by
  constructor
  · intro a b _
    unfold cosine_similarity
    rw [listDot_comm b a, mul_comm (magnitude b) (magnitude a)]
  · intro v hv
    have hS : sumSq v ≠ 0 := by
      intro hz
      obtain ⟨x, hx, hne⟩ := hv
      exact hne ((sumSq_eq_zero_iff v).mp hz x hx)
    have hm : magnitude v * magnitude v = sumSq v := by
      unfold magnitude
      exact Real.mul_self_sqrt (sumSq_nonneg v)
    have hne : magnitude v * magnitude v ≠ 0 := by rw [hm]; exact hS
    unfold cosine_similarity
    rw [if_neg hne, hm, listDot_self, div_self hS]

/-- Witness for C9 (amended) at concrete vectors. -/
theorem cosine_similarity_symm_and_self_witness :
    cosine_similarity [(1 : ℝ), 2] [(3 : ℝ), 4] = cosine_similarity [(3 : ℝ), 4] [(1 : ℝ), 2] ∧
    cosine_similarity [(3 : ℝ), 4] [(3 : ℝ), 4] = some 1 := by
  constructor
  · exact cosine_similarity_symm_and_self.1 [(1 : ℝ), 2] [(3 : ℝ), 4] rfl
  · exact cosine_similarity_symm_and_self.2 [(3 : ℝ), 4] ⟨3, by simp, by norm_num⟩

/-- Attach 0-based positions to a list, preserving input order; used for the
chunk rows of the embeddings store and for the stable tie-break of search. -/
def withIndexFrom {α : Type _} : ℕ → List α → List (ℕ × α)
  | _, [] => []
  | i, a :: t => (i, a) :: withIndexFrom (i + 1) t

theorem withIndexFrom_map_fst {α : Type _} :
    ∀ (i : ℕ) (l : List α), (withIndexFrom i l).map Prod.fst = List.range' i l.length := by
  intro i l
  induction l generalizing i with
  | nil => rfl
  | cons a t ih => simp [withIndexFrom, List.range', ih]

theorem mem_withIndexFrom {α : Type _} :
    ∀ (i : ℕ) (l : List α) (p : ℕ × α), p ∈ withIndexFrom i l →
      ∃ (j : ℕ) (hj : j < l.length), p = (i + j, l.get ⟨j, hj⟩) := by
  intro i l
  induction l generalizing i with
  | nil => intro p hp; cases hp
  | cons a t ih =>
      intro p hp
      rcases List.mem_cons.mp hp with hp | hp
      · exact ⟨0, Nat.succ_pos _, by simpa using hp⟩
      · obtain ⟨j, hj, he⟩ := ih (i + 1) p hp
        refine ⟨j + 1, Nat.succ_lt_succ hj, ?_⟩
        rw [he]
        simp only [Prod.mk.injEq, List.get_cons_succ]
        exact ⟨by omega, trivial⟩

/-- A search hit: the stable input position of a stored chunk together with
its similarity score against the query. -/
structure ScoredChunk where
  idx : ℕ
  score : ℚ
deriving DecidableEq

/-- Ordering used by the ranking step of `semantic_search`: strictly higher
similarity first, ties broken by the stable input order of the chunks
(spec section 3, "result ordering is strictly descending by score with ties
broken by stable input order"). -/
def hitBefore (a b : ScoredChunk) : Prop :=
  b.score < a.score ∨ (a.score = b.score ∧ a.idx ≤ b.idx)

instance (a b : ScoredChunk) : Decidable (hitBefore a b) :=
  inferInstanceAs (Decidable (b.score < a.score ∨ (a.score = b.score ∧ a.idx ≤ b.idx)))

instance : IsTotal ScoredChunk hitBefore := by
  constructor
  intro a b
  rcases lt_trichotomy a.score b.score with h | h | h
  · exact Or.inr (Or.inl h)
  · rcases Nat.le_total a.idx b.idx with hi | hi
    · exact Or.inl (Or.inr ⟨h, hi⟩)
    · exact Or.inr (Or.inr ⟨h.symm, hi⟩)
  · exact Or.inl (Or.inl h)

instance : IsTrans ScoredChunk hitBefore := by
  constructor
  intro a b c hab hbc
  rcases hab with hab | ⟨hab, hab'⟩
  · rcases hbc with hbc | ⟨hbc, _⟩
    · exact Or.inl (hbc.trans hab)
    · exact Or.inl (hbc ▸ hab)
  · rcases hbc with hbc | ⟨hbc, hbc'⟩
    · exact Or.inl (hab ▸ hbc)
    · exact Or.inr ⟨hab.trans hbc, hab'.trans hbc'⟩

/-- Modelled from the spec: `semantic_search.py` is absent from the shipped
source; Step 2 of TECHNICAL_FLOW.md computes a similarity score for every
stored chunk in input order.  The similarity function is a parameter; the
cosine function itself is treated in `cosine_similarity`. -/
def scoreChunks {α β : Type _} (sim : α → β → ℚ) (q : α) (chunks : List β) :
    List ScoredChunk :=
  (withIndexFrom 0 chunks).map (fun p => ⟨p.1, sim q p.2⟩)

/-- The similarity floor of Step 3 of `semantic_search` in TECHNICAL_FLOW.md:
"Filter: Keep only similarity > 0.5 threshold". -/
def similarityFloor : ℚ := 1 / 2

/-- Modelled from the spec: Step 3 of `semantic_search` in TECHNICAL_FLOW.md -
"Sort chunks by similarity score (highest first); Filter: keep only
similarity > 0.5 threshold; Limit: return top N results". -/
def semantic_search {α β : Type _} (sim : α → β → ℚ) (q : α) (chunks : List β)
    (limit : ℕ) : List ScoredChunk :=
  (((scoreChunks sim q chunks).insertionSort hitBefore).filter
    (fun h => similarityFloor < h.score)).take limit

theorem scoreChunks_map_idx {α β : Type _} (sim : α → β → ℚ) (q : α) (chunks : List β) :
    (scoreChunks sim q chunks).map ScoredChunk.idx = List.range' 0 chunks.length := by
  unfold scoreChunks
  rw [List.map_map]
  exact withIndexFrom_map_fst 0 chunks

/-- C2: for every query and requested limit, `semantic_search` returns at most
`limit` results, every result is strictly above the similarity floor, the
results are sorted strictly descending by score with ties broken by the
stable input order of the chunks, and every result is the score of a stored
chunk at its recorded input position. -/
theorem semantic_search_ranked {α β : Type _} (sim : α → β → ℚ) (q : α)
    (chunks : List β) (limit : ℕ) :
    (semantic_search sim q chunks limit).length ≤ limit ∧
    (∀ h ∈ semantic_search sim q chunks limit, similarityFloor < h.score) ∧
    (semantic_search sim q chunks limit).Pairwise
      (fun a b => b.score < a.score ∨ (a.score = b.score ∧ a.idx < b.idx)) ∧
    (∀ h ∈ semantic_search sim q chunks limit,
      ∃ (hb : h.idx < chunks.length), h.score = sim q (chunks.get ⟨h.idx, hb⟩)) := by
  have hsorted : ((scoreChunks sim q chunks).insertionSort hitBefore).Pairwise hitBefore :=
    List.sorted_insertionSort hitBefore (scoreChunks sim q chunks)
  have hperm : ((scoreChunks sim q chunks).insertionSort hitBefore).Perm
      (scoreChunks sim q chunks) :=
    List.perm_insertionSort hitBefore (scoreChunks sim q chunks)
  have hsub : (semantic_search sim q chunks limit).Sublist
      ((scoreChunks sim q chunks).insertionSort hitBefore) := by
    unfold semantic_search
    exact (List.take_sublist _ _).trans (List.filter_sublist _)
  refine ⟨?_, ?_, ?_, ?_⟩
  · unfold semantic_search
    rw [List.length_take]
    exact min_le_left _ _
  · intro h hh
    unfold semantic_search at hh
    have hh' := (List.take_sublist _ _).subset hh
    exact of_decide_eq_true (List.mem_filter.mp hh').2
  · have hmapnd : (((scoreChunks sim q chunks).insertionSort hitBefore).map
        ScoredChunk.idx).Nodup := by
      have hp : (((scoreChunks sim q chunks).insertionSort hitBefore).map
          ScoredChunk.idx).Perm ((scoreChunks sim q chunks).map ScoredChunk.idx) :=
        hperm.map ScoredChunk.idx
      rw [hp.nodup_iff, scoreChunks_map_idx]
      exact List.nodup_range' 0 chunks.length
    have hresnd : ((semantic_search sim q chunks limit).map ScoredChunk.idx).Nodup :=
      hmapnd.sublist (hsub.map ScoredChunk.idx)
    have hrespw : (semantic_search sim q chunks limit).Pairwise hitBefore :=
      hsorted.sublist hsub
    have hidxne : (semantic_search sim q chunks limit).Pairwise
        (fun a b => a.idx ≠ b.idx) :=
      List.pairwise_map.mp hresnd
    refine (hrespw.and hidxne).imp ?_
    intro a b hab
    rcases hab.1 with h1 | ⟨h1, h1'⟩
    · exact Or.inl h1
    · exact Or.inr ⟨h1, lt_of_le_of_ne h1' hab.2⟩
  · intro h hh
    have hmem : h ∈ scoreChunks sim q chunks :=
      (hperm.subset) (hsub.subset hh)
    unfold scoreChunks at hmem
    obtain ⟨p, hp, hpe⟩ := List.mem_map.mp hmem
    obtain ⟨j, hj, hpeq⟩ := mem_withIndexFrom 0 chunks p hp
    subst hpeq
    subst hpe
    simp only [Nat.zero_add]
    exact ⟨hj, trivial⟩

/-- Witness for C2: a concrete run where a tie is broken by input order, the
below-floor chunk is dropped and the limit is respected. -/
theorem semantic_search_ranked_witness :
    semantic_search (fun (_ : ℚ) (x : ℚ) => x) 0 [3/4, 1/4, 3/4, 7/8] 2 =
      [⟨3, 7/8⟩, ⟨0, 3/4⟩] ∧
    ((semantic_search (fun (_ : ℚ) (x : ℚ) => x) 0 [3/4, 1/4, 3/4, 7/8] 2).length ≤ 2 ∧
     (∀ h ∈ semantic_search (fun (_ : ℚ) (x : ℚ) => x) 0 [3/4, 1/4, 3/4, 7/8] 2,
       similarityFloor < h.score)) := by
  refine ⟨?_, ?_, ?_⟩
  · norm_num [semantic_search, scoreChunks, withIndexFrom, similarityFloor,
      List.insertionSort, List.orderedInsert, hitBefore, List.filter, List.take]
  · exact (semantic_search_ranked (fun (_ : ℚ) (x : ℚ) => x) 0 [3/4, 1/4, 3/4, 7/8] 2).1
  · exact (semantic_search_ranked (fun (_ : ℚ) (x : ℚ) => x) 0 [3/4, 1/4, 3/4, 7/8] 2).2.1

/-- The fixed character budget of a chunk, "Break document into 1000-char
chunks" (TECHNICAL_FLOW.md, Embedding Generation Step 1). -/
def chunkSize : ℕ := 1000

/-- The fixed overlap between consecutive chunks, "200-char overlap between
chunks" (TECHNICAL_FLOW.md, Embedding Generation Step 1). -/
def chunkOverlap : ℕ := 200

/-- Modelled from the spec: the chunking loop of `semantic_search.py` is
absent from the shipped source; the loop is reconstructed from the worked
example in TECHNICAL_FLOW.md (a 3000-char document yields windows 0-1000,
800-1800, 1600-2600, 2400-3000): emit the window at `start`, stop when the
window reaches the end of the text, otherwise continue 200 characters before
the window end.  The fuel argument only bounds the recursion; `chunk_text`
supplies enough fuel for the loop to run to completion. -/
def chunkGo : ℕ → List Char → ℕ → List (List Char)
  | 0, _, _ => []
  | fuel + 1, s, start =>
    if start < s.length then
      let e := min (start + chunkSize) s.length
      let c := (s.drop start).take (e - start)
      if e < s.length then c :: chunkGo fuel s (e - chunkOverlap) else [c]
    else []

/-- Chunking of a document's text into overlapping fixed-size windows. -/
def chunk_text (s : List Char) : List (List Char) := chunkGo (s.length + 1) s 0

/-- Concatenation of chunks in chunk-index order with the 200-char overlap of
every later chunk removed; the reconstruction reading of "reproduces the
original text up to the defined overlap". -/
def flattenOverlap : List (List Char) → List Char
  | [] => []
  | c :: rest => c ++ (rest.map (List.drop chunkOverlap)).flatten

theorem flattenOverlap_cons (c : List Char) (rest : List (List Char)) :
    flattenOverlap (c :: rest) = c ++ (rest.map (List.drop chunkOverlap)).flatten := rfl

theorem chunkGo_succ_of_lt (fuel : ℕ) (s : List Char) (start : ℕ)
    (h : start < s.length) :
    chunkGo (fuel + 1) s start =
      if start + chunkSize < s.length
      then ((s.drop start).take chunkSize) :: chunkGo fuel s (start + chunkSize - chunkOverlap)
      else [s.drop start] := by
  by_cases h2 : start + chunkSize < s.length
  · simp only [chunkGo, if_pos h, min_eq_left h2.le, if_pos h2,
      Nat.add_sub_cancel_left, if_pos h2]
  · have hmin : min (start + chunkSize) s.length = s.length :=
      min_eq_right (le_of_not_lt h2)
    simp only [chunkGo, if_pos h, hmin, lt_irrefl, if_false, if_neg h2]
    rw [← List.length_drop start s, List.take_length]

theorem chunkGo_stopped (fuel : ℕ) (s : List Char) (start : ℕ)
    (h : ¬ start < s.length) : chunkGo fuel s start = [] := by
  cases fuel with
  | zero => rfl
  | succ fuel => simp only [chunkGo, if_neg h]

theorem chunkGo_sizes :
    ∀ (fuel : ℕ) (s : List Char) (start : ℕ),
      ∀ c ∈ chunkGo fuel s start, c.length ≤ chunkSize := by
  intro fuel
  induction fuel with
  | zero => intro s start c hc; cases hc
  | succ fuel ih =>
      intro s start c hc
      by_cases h : start < s.length
      · rw [chunkGo_succ_of_lt fuel s start h] at hc
        by_cases h2 : start + chunkSize < s.length
        · rw [if_pos h2] at hc
          rcases List.mem_cons.mp hc with rfl | hc
          · rw [List.length_take]
            exact min_le_left _ _
          · exact ih s _ c hc
        · rw [if_neg h2] at hc
          rcases List.mem_cons.mp hc with rfl | hc
          · rw [List.length_drop]
            omega
          · cases hc
      · rw [chunkGo_stopped _ _ _ h] at hc
        cases hc

theorem overlap_window_eq (s : List Char) (start : ℕ) :
    (s.drop (start + chunkSize - chunkOverlap)).take chunkOverlap =
      ((s.drop start).take chunkSize).drop (chunkSize - chunkOverlap) := by
  simp only [chunkSize, chunkOverlap]
  rw [List.drop_take, List.drop_drop]
  have e1 : (1000 : ℕ) - (1000 - 200) = 200 := by norm_num
  have e2 : start + (1000 - 200) = start + 1000 - 200 := by omega
  rw [e1, e2]

theorem chunkGo_chain :
    ∀ (fuel : ℕ) (s : List Char) (start : ℕ), s.length - start ≤ fuel →
      (chunkGo fuel s start).Chain' (fun a b =>
        a.length = chunkSize ∧ b.take chunkOverlap = a.drop (chunkSize - chunkOverlap)) := by
  intro fuel
  induction fuel with
  | zero => intro s start _; exact List.chain'_nil
  | succ fuel ih =>
      intro s start hf
      have hcs : chunkSize = 1000 := rfl
      have hov : chunkOverlap = 200 := rfl
      by_cases h : start < s.length
      · rw [chunkGo_succ_of_lt fuel s start h]
        by_cases h2 : start + chunkSize < s.length
        · rw [if_pos h2, List.chain'_cons']
          refine ⟨?_, ih s _ (by omega)⟩
          intro b hb
          have hlt' : start + chunkSize - chunkOverlap < s.length := by omega
          obtain ⟨f, rfl⟩ : ∃ f, fuel = f + 1 := ⟨fuel - 1, by omega⟩
          rw [chunkGo_succ_of_lt f s _ hlt'] at hb
          have hbtake : b.take chunkOverlap =
              (s.drop (start + chunkSize - chunkOverlap)).take chunkOverlap := by
            by_cases h3 : start + chunkSize - chunkOverlap + chunkSize < s.length
            · rw [if_pos h3] at hb
              simp only [List.head?_cons, Option.mem_def, Option.some.injEq] at hb
              rw [← hb, List.take_take]
              have : min chunkOverlap chunkSize = chunkOverlap := by omega
              rw [this]
            · rw [if_neg h3] at hb
              simp only [List.head?_cons, Option.mem_def, Option.some.injEq] at hb
              rw [← hb]
          constructor
          · rw [List.length_take, List.length_drop]
            omega
          · rw [hbtake, overlap_window_eq]
        · rw [if_neg h2]
          exact List.chain'_singleton _
      · rw [chunkGo_stopped _ _ _ h]
        exact List.chain'_nil

theorem chunkGo_join_drop :
    ∀ (fuel : ℕ) (s : List Char) (start : ℕ),
      s.length - start ≤ fuel → start < s.length →
      ((chunkGo fuel s start).map (List.drop chunkOverlap)).flatten =
        s.drop (start + chunkOverlap) := by
  intro fuel
  induction fuel with
  | zero => intro s start hf h; omega
  | succ fuel ih =>
      intro s start hf h
      have hcs : chunkSize = 1000 := rfl
      have hov : chunkOverlap = 200 := rfl
      rw [chunkGo_succ_of_lt fuel s start h]
      by_cases h2 : start + chunkSize < s.length
      · rw [if_pos h2]
        simp only [List.map_cons, List.flatten_cons]
        rw [ih s (start + chunkSize - chunkOverlap) (by omega) (by omega)]
        have he : start + chunkSize - chunkOverlap + chunkOverlap = start + chunkSize := by
          omega
        rw [he, List.drop_take, List.drop_drop]
        have h2e : (s.drop (start + chunkOverlap)).drop (chunkSize - chunkOverlap) =
            s.drop (start + chunkSize) := by
          rw [List.drop_drop]
          have : start + chunkOverlap + (chunkSize - chunkOverlap) = start + chunkSize := by
            omega
          rw [this]
        rw [← h2e, List.take_append_drop]
      · rw [if_neg h2]
        simp only [List.map_cons, List.map_nil, List.flatten_cons, List.flatten_nil,
          List.append_nil]
        rw [List.drop_drop]

theorem chunkGo_flatten :
    ∀ (fuel : ℕ) (s : List Char) (start : ℕ),
      s.length - start ≤ fuel → start < s.length →
      flattenOverlap (chunkGo fuel s start) = s.drop start := by
  intro fuel s start hf h
  have hcs : chunkSize = 1000 := rfl
  have hov : chunkOverlap = 200 := rfl
  obtain ⟨f, rfl⟩ : ∃ f, fuel = f + 1 := ⟨fuel - 1, by omega⟩
  rw [chunkGo_succ_of_lt f s start h]
  by_cases h2 : start + chunkSize < s.length
  · rw [if_pos h2, flattenOverlap_cons]
    rw [chunkGo_join_drop f s (start + chunkSize - chunkOverlap) (by omega) (by omega)]
    have he : start + chunkSize - chunkOverlap + chunkOverlap = start + chunkSize := by
      omega
    rw [he]
    have h2e : (s.drop start).drop chunkSize = s.drop (start + chunkSize) := by
      rw [List.drop_drop]
    rw [← h2e, List.take_append_drop]
  · rw [if_neg h2, flattenOverlap_cons]
    simp

/-- C6: for a nonempty document text, every chunk respects the 1000-character
budget, consecutive chunks are full windows overlapping in exactly the final
200 characters of the earlier one, a document no longer than the budget
yields exactly one chunk (the whole text), and concatenating the chunks in
chunk-index order with the overlap of each later chunk removed reproduces
the original text. -/
theorem chunk_text_spec (s : List Char) (hs : 0 < s.length) :
    (∀ c ∈ chunk_text s, c.length ≤ chunkSize) ∧
    (chunk_text s).Chain' (fun a b =>
      a.length = chunkSize ∧ b.take chunkOverlap = a.drop (chunkSize - chunkOverlap)) ∧
    (s.length ≤ chunkSize → chunk_text s = [s]) ∧
    flattenOverlap (chunk_text s) = s := by
  unfold chunk_text
  refine ⟨chunkGo_sizes _ s 0, chunkGo_chain _ s 0 (by omega), ?_, ?_⟩
  · intro hle
    rw [chunkGo_succ_of_lt s.length s 0 hs, if_neg (by omega)]
    rw [List.drop_zero]
  · rw [chunkGo_flatten (s.length + 1) s 0 (by omega) hs, List.drop_zero]

/-- Witness for C6 at a concrete short document. -/
theorem chunk_text_spec_witness :
    chunk_text ['s', 'i', 'm'] = [['s', 'i', 'm']] ∧
    flattenOverlap (chunk_text ['s', 'i', 'm']) = ['s', 'i', 'm'] := by
  have h := chunk_text_spec ['s', 'i', 'm'] (by decide)
  exact ⟨h.2.2.1 (by decide), h.2.2.2⟩

/-- A row of the `embeddings` table of schema.sql: entity reference, chunk
index and chunk text (the vector itself plays no role in the row-identity
claim and is omitted). -/
structure EmbRow where
  entity_type : String
  entity_id : ℕ
  chunk_index : ℕ
  text : List Char
deriving DecidableEq

/-- The identifying key (entity_type, entity_id, chunk_index) of an
embeddings row. -/
def rowKey (r : EmbRow) : String × ℕ × ℕ :=
  (r.entity_type, r.entity_id, r.chunk_index)

/-- The fresh embeddings rows of one document: one row per chunk, indexed in
chunk order, as Step 3 of the indexing flow of TECHNICAL_FLOW.md stores
them. -/
def embedRows (etype : String) (eid : ℕ) (text : List Char) : List EmbRow :=
  (withIndexFrom 0 (chunk_text text)).map (fun p => ⟨etype, eid, p.1, p.2⟩)

/-- Modelled from the spec: the indexing batch of `index_documents.py` is
absent from the shipped source; per spec section 6 it "should fully replace
prior embeddings for any document it touches", embedded as delete-then-insert
of that document's rows. -/
def index_document (store : List EmbRow) (etype : String) (eid : ℕ)
    (text : List Char) : List EmbRow :=
  store.filter (fun r => ¬(r.entity_type = etype ∧ r.entity_id = eid)) ++
    embedRows etype eid text

theorem mem_embedRows {etype : String} {eid : ℕ} {text : List Char} {r : EmbRow}
    (h : r ∈ embedRows etype eid text) :
    r.entity_type = etype ∧ r.entity_id = eid := by
  unfold embedRows at h
  obtain ⟨p, _, hpe⟩ := List.mem_map.mp h
  rw [← hpe]
  exact ⟨rfl, rfl⟩

theorem countP_idx_withIndexFrom {α : Type _} :
    ∀ (i : ℕ) (l : List α) (k : ℕ),
      (withIndexFrom i l).countP (fun p => p.1 = k) =
        if i ≤ k ∧ k < i + l.length then 1 else 0 := by
  intro i l
  induction l generalizing i with
  | nil =>
      intro k
      simp only [withIndexFrom, List.countP_nil, List.length_nil]
      rw [if_neg (by omega)]
  | cons a t ih =>
      intro k
      have hstep : withIndexFrom i (a :: t) = (i, a) :: withIndexFrom (i + 1) t := rfl
      rw [hstep, List.countP_cons, ih (i + 1) k]
      dsimp only
      simp only [List.length_cons, decide_eq_true_eq]
      split_ifs <;> omega

theorem countP_key_embedRows (etype : String) (eid : ℕ) (text : List Char) (k : ℕ) :
    (embedRows etype eid text).countP (fun r => rowKey r = (etype, eid, k)) =
      if k < (chunk_text text).length then 1 else 0 := by
  unfold embedRows
  rw [List.countP_map]
  have hcongr : (withIndexFrom 0 (chunk_text text)).countP
      ((fun r : EmbRow => decide (rowKey r = (etype, eid, k))) ∘
        (fun p : ℕ × List Char => (⟨etype, eid, p.1, p.2⟩ : EmbRow))) =
      (withIndexFrom 0 (chunk_text text)).countP (fun p => p.1 = k) := by
    apply List.countP_congr
    intro p _
    simp [rowKey]
  rw [hcongr, countP_idx_withIndexFrom 0 (chunk_text text) k]
  by_cases hk : k < (chunk_text text).length
  · rw [if_pos (by omega), if_pos hk]
  · rw [if_neg (by omega), if_neg hk]

/-- C7: after (re)indexing a document, the embeddings store holds exactly one
row per (entity_type, entity_id, chunk_index) of that document - one for each
chunk index the document actually has, none for any other index - and
re-running the indexing on the same document leaves the store unchanged
(replace, not append). -/
theorem index_document_replaces (store : List EmbRow) (etype : String) (eid : ℕ)
    (text : List Char) (k : ℕ) :
    ((index_document store etype eid text).countP
        (fun r => rowKey r = (etype, eid, k)) =
      if k < (chunk_text text).length then 1 else 0) ∧
    index_document (index_document store etype eid text) etype eid text =
      index_document store etype eid text := by
  constructor
  · unfold index_document
    rw [List.countP_append]
    have hold : (store.filter
        (fun r => ¬(r.entity_type = etype ∧ r.entity_id = eid))).countP
        (fun r => rowKey r = (etype, eid, k)) = 0 := by
      rw [List.countP_eq_zero]
      intro r hr
      have hpred := (List.mem_filter.mp hr).2
      have hnp : ¬(r.entity_type = etype ∧ r.entity_id = eid) :=
        of_decide_eq_true hpred
      intro hkey
      have hkey' : rowKey r = (etype, eid, k) := of_decide_eq_true hkey
      unfold rowKey at hkey'
      simp only [Prod.mk.injEq] at hkey'
      exact hnp ⟨hkey'.1, hkey'.2.1⟩
    rw [hold, Nat.zero_add, countP_key_embedRows]
  · unfold index_document
    rw [List.filter_append]
    have h1 : (embedRows etype eid text).filter
        (fun r => ¬(r.entity_type = etype ∧ r.entity_id = eid)) = [] := by
      rw [List.filter_eq_nil_iff]
      intro r hr
      have := mem_embedRows hr
      simp [this.1, this.2]
    have h2 : ((store.filter
        (fun r => ¬(r.entity_type = etype ∧ r.entity_id = eid))).filter
        (fun r => ¬(r.entity_type = etype ∧ r.entity_id = eid))) =
        store.filter (fun r => ¬(r.entity_type = etype ∧ r.entity_id = eid)) := by
      rw [List.filter_filter]
      simp
    rw [h1, h2, List.append_nil]

/-- Substring containment test over character lists: does the haystack
contain the needle as a contiguous run?  This is the semantics of the
documented SQL pattern `LIKE '%text%'`. -/
def containsToken (hay needle : List Char) : Bool :=
  hay.tails.any (fun t => needle.isPrefixOf t)

/-- Lower-cased character list of a string; SQLite `LIKE` compares ASCII
case-insensitively. -/
def lcChars (s : String) : List Char := s.data.map Char.toLower

/-- An organization row: identifier and display name (schema.sql,
`organizations`). -/
structure Org where
  id : ℕ
  display_name : String
deriving DecidableEq

/-- The `LIKE '%name%'` match of the documented organization lookup
(TECHNICAL_FLOW.md, Query 1: Find Organization). -/
def orgMatches (text : String) (o : Org) : Bool :=
  containsToken (lcChars o.display_name) (lcChars text)

/-- Outcome of a fuzzy organization lookup, after the error taxonomy of
spec section 7: no candidate, a unique candidate, or an
`AmbiguousMatchError` carrying the full candidate list. -/
inductive OrgLookup where
  | notFound
  | found (org : Org)
  | ambiguous (candidates : List Org)
deriving DecidableEq

/-- Modelled from the spec: `db_manager.py` is absent from the shipped
source; per spec sections 4.1 and 7 a fuzzy name lookup returns zero, one or
many candidates, and the many case surfaces the whole candidate list as an
`AmbiguousMatchError` instead of picking one. -/
def find_organization (orgs : List Org) (text : String) : OrgLookup :=
  match orgs.filter (orgMatches text) with
  | [] => OrgLookup.notFound
  | [o] => OrgLookup.found o
  | o₁ :: o₂ :: rest => OrgLookup.ambiguous (o₁ :: o₂ :: rest)

/-- C3: whenever a fuzzy name matches two or more organizations, the lookup
returns the ambiguous outcome carrying the full candidate list, and never
resolves to a single organization. -/
theorem find_organization_ambiguous (orgs : List Org) (text : String)
    (h : 2 ≤ (orgs.filter (orgMatches text)).length) :
    find_organization orgs text =
      OrgLookup.ambiguous (orgs.filter (orgMatches text)) ∧
    ∀ o, find_organization orgs text ≠ OrgLookup.found o := by
  have key : find_organization orgs text =
      OrgLookup.ambiguous (orgs.filter (orgMatches text)) := by
    unfold find_organization
    cases hm : orgs.filter (orgMatches text) with
    | nil => rw [hm] at h; simp at h
    | cons o₁ rest =>
        cases rest with
        | nil => rw [hm] at h; simp at h
        | cons o₂ rest₂ => rfl
  refine ⟨key, fun o hfound => ?_⟩
  rw [key] at hfound
  exact OrgLookup.noConfusion hfound

/-- Witness for C3: two organizations both matching the text "carrier". -/
theorem find_organization_ambiguous_witness :
    2 ≤ (([⟨1, "Carrier Alpha"⟩, ⟨2, "Carrier Beta"⟩] : List Org).filter
      (orgMatches "carrier")).length ∧
    find_organization [⟨1, "Carrier Alpha"⟩, ⟨2, "Carrier Beta"⟩] "carrier" =
      OrgLookup.ambiguous [⟨1, "Carrier Alpha"⟩, ⟨2, "Carrier Beta"⟩] := by
  have h2 : 2 ≤ (([⟨1, "Carrier Alpha"⟩, ⟨2, "Carrier Beta"⟩] : List Org).filter
      (orgMatches "carrier")).length := by decide
  refine ⟨h2, ?_⟩
  have h := (find_organization_ambiguous
    [⟨1, "Carrier Alpha"⟩, ⟨2, "Carrier Beta"⟩] "carrier" h2).1
  rw [h]
  congr 1

/-- A document row: identifier, title, type and raw content (schema.sql,
`documents`). -/
structure DocumentRec where
  id : ℕ
  title : String
  document_type : String
  content : String
deriving DecidableEq

/-- A document-organization link row (schema.sql, `document_org_links`). -/
structure DocOrgLink where
  document_id : ℕ
  organization_id : ℕ
deriving DecidableEq

/-- The graph store tables the carrier-document listing reads. -/
structure KnowledgeDB where
  organizations : List Org
  documents : List DocumentRec
  document_org_links : List DocOrgLink

/-- One entry of the carrier-document listing: title and type only.  The
content column is never selected - the 2024-12-28 changelog records the
query as `SELECT d.title, d.document_type, d.metadata` - so the content
component of a listing row is always absent. -/
structure DocListing where
  title : String
  doc_type : String
  content : Option String
deriving DecidableEq

/-- The documents joined to an organization through `document_org_links`. -/
def docsForOrg (db : KnowledgeDB) (orgId : ℕ) : List DocumentRec :=
  db.documents.filter (fun d =>
    db.document_org_links.any (fun l =>
      l.document_id = d.id ∧ l.organization_id = orgId))

/-- Modelled from the spec: `llm_navigator.py` is absent from the shipped
source; per spec section 4.5 and the 2024-12-28 changelog,
`get_carrier_documents` fuzzy-matches the carrier and returns a lightweight
listing of titles and types only, never the full content. -/
def get_carrier_documents (db : KnowledgeDB) (carrier_name : String) :
    Option (List DocListing) :=
  match find_organization db.organizations carrier_name with
  | OrgLookup.found o =>
      some ((docsForOrg db o.id).map (fun d => ⟨d.title, d.document_type, none⟩))
  | _ => none

/-- C4: whenever the carrier name fuzzy-matches an organization, the listing
returned by `get_carrier_documents` consists exactly of the title and
document type of each linked document, and no entry carries any document
content. -/
theorem get_carrier_documents_titles_only (db : KnowledgeDB)
    (carrier_name : String) (listing : List DocListing)
    (h : get_carrier_documents db carrier_name = some listing) :
    (∀ e ∈ listing, e.content = none) ∧
    ∃ o, find_organization db.organizations carrier_name = OrgLookup.found o ∧
      listing = (docsForOrg db o.id).map (fun d => ⟨d.title, d.document_type, none⟩) := by
  unfold get_carrier_documents at h
  cases hm : find_organization db.organizations carrier_name with
  | found o =>
      rw [hm] at h
      have hl : listing =
          (docsForOrg db o.id).map (fun d => ⟨d.title, d.document_type, none⟩) :=
        (Option.some.injEq _ _ ▸ h).symm
      refine ⟨?_, o, rfl, hl⟩
      intro e he
      rw [hl] at he
      obtain ⟨d, _, hde⟩ := List.mem_map.mp he
      rw [← hde]
  | notFound => rw [hm] at h; exact Option.noConfusion h
  | ambiguous cs => rw [hm] at h; exact Option.noConfusion h

/-- Witness for C4 at a one-org, one-document store whose document content is
present in the store but absent from the listing. -/
theorem get_carrier_documents_titles_only_witness :
    get_carrier_documents
      ⟨[⟨1, "Carrier Alpha"⟩],
       [⟨10, "Alpha Annuity Scorecard 2026", "carrier_scorecard", "FULL CONTENT"⟩],
       [⟨10, 1⟩]⟩ "alpha" =
      some [⟨"Alpha Annuity Scorecard 2026", "carrier_scorecard", none⟩] ∧
    ∀ e ∈ [(⟨"Alpha Annuity Scorecard 2026", "carrier_scorecard", none⟩ : DocListing)],
      e.content = none := by
  have hrun : get_carrier_documents
      ⟨[⟨1, "Carrier Alpha"⟩],
       [⟨10, "Alpha Annuity Scorecard 2026", "carrier_scorecard", "FULL CONTENT"⟩],
       [⟨10, 1⟩]⟩ "alpha" =
      some [⟨"Alpha Annuity Scorecard 2026", "carrier_scorecard", none⟩] := by decide
  exact ⟨hrun, (get_carrier_documents_titles_only _ "alpha" _ hrun).1⟩

/-- One per-question record of a carrier scorecard.  Per the 2024-12-26
changelog, the scorecard JSON carries both years: `n_score`/`rank_current`
hold the current period (2026) and `py_n_score`/`py_rank` the prior period
(2025); `rank_delta` is the year-over-year rank movement. -/
structure ScorecardQuestion where
  question : String
  n_score : ℚ
  rank_current : ℚ
  rank_delta : ℚ
  py_n_score : ℚ
  py_rank : ℚ
deriving DecidableEq

/-- Modelled from the spec: the scorecard parser of `data_loader.py` is
absent from the shipped source; a per-question record parses only when the
current-period fields and the distinct prior-period fields are all present
in the JSON object (spec section 3 invariant: every `carrier_scorecard`
content carries both). -/
def parseScorecardQuestion (name : String) (fields : List (String × ℚ)) :
    Option ScorecardQuestion :=
  match fields.lookup "n_score", fields.lookup "rank_current",
      fields.lookup "rank_delta", fields.lookup "py_n_score",
      fields.lookup "py_rank" with
  | some ns, some rc, some rd, some pns, some pr =>
      some ⟨name, ns, rc, rd, pns, pr⟩
  | _, _, _, _, _ => none

/-- The period a scorecard reader is asked about. -/
inductive Period where
  | current
  | prior
deriving DecidableEq

/-- Modelled from the spec: the schema-prompt rule of the 2024-12-26
changelog - readers use the current-period fields, and the prior-period
fields only when the prior year is explicitly requested. -/
def readScore (q : ScorecardQuestion) : Period → ℚ × ℚ
  | Period.current => (q.n_score, q.rank_current)
  | Period.prior => (q.py_n_score, q.py_rank)

/-- The period used when none is explicitly requested ("Use 2026 data BY
DEFAULT", 2024-12-26 changelog). -/
def defaultPeriod : Period := Period.current

/-- Reading a scorecard question without an explicit period request. -/
def defaultReadScore (q : ScorecardQuestion) : ℚ × ℚ := readScore q defaultPeriod

/-- C5: every successfully parsed carrier-scorecard question record carries
both the current-period fields and the distinct prior-period fields of the
source object, the default read returns exactly the current-period pair, and
the prior-period pair is returned only on an explicit prior request. -/
theorem scorecard_period_fields (name : String) (fields : List (String × ℚ))
    (q : ScorecardQuestion) (h : parseScorecardQuestion name fields = some q) :
    (fields.lookup "n_score" = some q.n_score ∧
     fields.lookup "rank_current" = some q.rank_current ∧
     fields.lookup "py_n_score" = some q.py_n_score ∧
     fields.lookup "py_rank" = some q.py_rank) ∧
    defaultReadScore q = (q.n_score, q.rank_current) ∧
    readScore q Period.prior = (q.py_n_score, q.py_rank) := by
  unfold parseScorecardQuestion at h
  cases h1 : fields.lookup "n_score" with
  | none => rw [h1] at h; exact Option.noConfusion h
  | some ns =>
  cases h2 : fields.lookup "rank_current" with
  | none => rw [h1, h2] at h; exact Option.noConfusion h
  | some rc =>
  cases h3 : fields.lookup "rank_delta" with
  | none => rw [h1, h2, h3] at h; exact Option.noConfusion h
  | some rd =>
  cases h4 : fields.lookup "py_n_score" with
  | none => rw [h1, h2, h3, h4] at h; exact Option.noConfusion h
  | some pns =>
  cases h5 : fields.lookup "py_rank" with
  | none => rw [h1, h2, h3, h4, h5] at h; exact Option.noConfusion h
  | some pr =>
  rw [h1, h2, h3, h4, h5] at h
  have hq : q = ⟨name, ns, rc, rd, pns, pr⟩ := (Option.some.injEq _ _ ▸ h).symm
  subst hq
  exact ⟨⟨rfl, rfl, rfl, rfl⟩, rfl, rfl⟩

/-- Witness for C5 at a concrete parsed record. -/
theorem scorecard_period_fields_witness :
    parseScorecardQuestion "Business Confidence"
      [("n_score", 1), ("rank_current", 12), ("rank_delta", -3),
       ("py_n_score", 2), ("py_rank", 9)] =
      some ⟨"Business Confidence", 1, 12, -3, 2, 9⟩ ∧
    defaultReadScore ⟨"Business Confidence", 1, 12, -3, 2, 9⟩ = (1, 12) ∧
    readScore ⟨"Business Confidence", 1, 12, -3, 2, 9⟩ Period.prior = (2, 9) := by
  have hp : parseScorecardQuestion "Business Confidence"
      [("n_score", 1), ("rank_current", 12), ("rank_delta", -3),
       ("py_n_score", 2), ("py_rank", 9)] =
      some ⟨"Business Confidence", 1, 12, -3, 2, 9⟩ := by decide
  have h := scorecard_period_fields "Business Confidence"
    [("n_score", 1), ("rank_current", 12), ("rank_delta", -3),
     ("py_n_score", 2), ("py_rank", 9)]
    ⟨"Business Confidence", 1, 12, -3, 2, 9⟩ hp
  exact ⟨hp, h.2.1, h.2.2⟩

/-- The tool catalogue the Navigator exposes to the agent (spec section 4.5
and the 2024-12-30 changelog). -/
inductive NavTool where
  | list_organizations
  | list_products
  | list_roles
  | get_carrier_documents
  | get_scorecard
  | get_question_scorecard
  | get_production_history
  | get_role_perspective
  | get_document_content
  | semantic_search
deriving DecidableEq

/-- The two answer-framing modes and the permissive fallback (spec section
4.5, Mode selection). -/
inductive NavMode where
  | mode1
  | mode2
  | fallback
deriving DecidableEq

/-- Evaluation-question tokens that trigger Mode 2 (the CPO question kinds of
the 2024-12-30 changelog). -/
def cpoQuestionTokens : List String :=
  ["underwriting", "compensation", "meet customer need", "communication with"]

/-- Relative-standing phrasing that triggers Mode 2. -/
def relativeStandingTokens : List String :=
  ["relative to", "compared to", "other companies", "other carriers", "versus"]

/-- Does the lower-cased question mention any of the tokens? -/
def mentionsAny (tokens : List String) (t : List Char) : Bool :=
  tokens.any (fun k => containsToken t k.data)

/-- Modelled from the spec: the mode-selection logic lives in the schema
prompt of `llm_navigator.py`, absent from the shipped source; per spec
section 4.5, Mode 2 is triggered by naming an evaluation question and asking
for relative standing, Mode 1 by the "what was / how did ... performance"
shape, and everything else falls back to free tool choice. -/
def select_mode (question : String) : NavMode :=
  let t := lcChars question
  if mentionsAny cpoQuestionTokens t && mentionsAny relativeStandingTokens t then
    NavMode.mode2
  else if containsToken t "performance".data &&
      (containsToken t "what was".data || containsToken t "how did".data) then
    NavMode.mode1
  else NavMode.fallback

/-- The ordered tool calls each mode prescribes (spec section 4.5 and the
2024-12-30 changelog's expected behavior); the fallback leaves the choice to
the agent. -/
def mode_tool_calls : NavMode → Option (List NavTool)
  | NavMode.mode1 => some [NavTool.get_scorecard, NavTool.get_production_history]
  | NavMode.mode2 => some [NavTool.get_role_perspective, NavTool.get_question_scorecard]
  | NavMode.fallback => none

/-- The per-turn routing of the Navigator: classify, then plan the tool
calls. -/
def navigator_plan (question : String) : Option (List NavTool) :=
  mode_tool_calls (select_mode question)

/-- C1: the performance question routes to Mode 1 and plans exactly the
scorecard and production-history calls; the underwriting comparison question
routes to Mode 2 and plans the role-perspective call followed by the
question-scorecard call. -/
theorem two_mode_routing :
    select_mode "What was Carrier A\x27s Annuity performance in 2026?" =
      NavMode.mode1 ∧
    navigator_plan "What was Carrier A\x27s Annuity performance in 2026?" =
      some [NavTool.get_scorecard, NavTool.get_production_history] ∧
    select_mode
      "For underwriting, how did Carrier A perform relative to other companies?" =
      NavMode.mode2 ∧
    navigator_plan
      "For underwriting, how did Carrier A perform relative to other companies?" =
      some [NavTool.get_role_perspective, NavTool.get_question_scorecard] := by
  refine ⟨by decide, by decide, by decide, by decide⟩

/-- Leading and trailing whitespace removal, the `input.trim()` of
`ChatScreen.handleSend`. -/
def trimText (s : String) : String :=
  ⟨((s.data.dropWhile Char.isWhitespace).reverse.dropWhile Char.isWhitespace).reverse⟩

/-- The author of a chat message, the `role` field of `Message` in
ChatScreen. -/
inductive ChatRole where
  | user
  | assistant
deriving DecidableEq

/-- One message of the conversation state, the `Message` interface of
ChatScreen (the `id` timestamp plays no role in the state claim). -/
structure ChatMessage where
  role : ChatRole
  content : String
deriving DecidableEq

/-- The state update of `ChatScreen.handleSend` (src/unnamed/part_001): an
empty trimmed input or a missing connection returns early with the state
unchanged; otherwise the user message is appended first, and then the send
either succeeds - appending the assistant message - or throws, in which case
only an alert is shown and the appended user message stays.  The outcome of
the awaited `sendMessage` call is passed in as an `Except` value. -/
def handleSend (isConnected : Bool) (messages : List ChatMessage)
    (input : String) (response : Except Unit String) : List ChatMessage :=
  if trimText input = "" then messages
  else if isConnected then
    let afterUser := messages ++ [⟨ChatRole.user, trimText input⟩]
    match response with
    | Except.ok resp => afterUser ++ [⟨ChatRole.assistant, resp⟩]
    | Except.error _ => afterUser
  else messages

/-- C8 counterexample: a turn whose send step fails does not leave the
conversation state as it was - the user message has already been appended
and is not rolled back, so a user message is recorded without a completed
response. -/
theorem handleSend_not_atomic :
    handleSend true [] "hello" (Except.error ()) = [⟨ChatRole.user, "hello"⟩] ∧
    handleSend true [] "hello" (Except.error ()) ≠ ([] : List ChatMessage) := by
  decide

/-- C8 (amended): `handleSend` appends the user message before awaiting the
response; on success the assistant message is appended after it, but on
failure the state keeps the user message with no response.  Only the
pre-send guards (blank input, no connection) leave the state unchanged. -/
theorem handleSend_turn_behavior (messages : List ChatMessage) (input : String)
    (h : trimText input ≠ "") :
    (∀ e, handleSend true messages input (Except.error e) =
      messages ++ [⟨ChatRole.user, trimText input⟩]) ∧
    (∀ resp, handleSend true messages input (Except.ok resp) =
      messages ++ [⟨ChatRole.user, trimText input⟩, ⟨ChatRole.assistant, resp⟩]) ∧
    (∀ r, handleSend false messages input r = messages) := by
  refine ⟨fun e => ?_, fun resp => ?_, fun r => ?_⟩
  · simp [handleSend, h]
  · simp [handleSend, h]
  · simp [handleSend]

/-- Witness for C8 (amended) at a concrete turn. -/
theorem handleSend_turn_behavior_witness :
    handleSend true [] "hi" (Except.error ()) = [⟨ChatRole.user, "hi"⟩] ∧
    handleSend true [] "hi" (Except.ok "ok") =
      [⟨ChatRole.user, "hi"⟩, ⟨ChatRole.assistant, "ok"⟩] ∧
    handleSend false [] "hi" (Except.error ()) = [] := by
  have h := handleSend_turn_behavior [] "hi" (by decide)
  have htrim : trimText "hi" = "hi" := by decide
  refine ⟨?_, ?_, h.2.2 (Except.error ())⟩
  · rw [h.1 (), htrim]
    rfl
  · rw [h.2.1 "ok", htrim]
    rfl
